import Mathlib

/-!
Verification of the AICaC adoption scripts.

This file embeds the pure logic of three Python scripts of the repository
and of one helper in the validation tooling:

* `scripts/validate.py`   — `AICaCValidator` (compliance tiers, context checks)
* `scripts/update_badge.py` — `BadgeUpdater` (badge regex replace / insert)
* `scripts/bootstrap.py`  — `AICaCBootstrap._detect_project_name`
* `validation/scripts/performance_measurement.py` — `check_answer`

File contents are modelled as `List Char`; the file system interactions are
modelled by passing the file contents (or `Option` thereof) explicitly.
-/

/-! ## update_badge.py : the badge pattern

The recognition pattern is the Python regex
`\[\!\[AICaC\]\([^\)]+\)\]\([^\)]+\)`.
Because the character class `[^)]` can never match `)`, the greedy `[^)]+`
pieces are deterministic (maximal munch, no productive backtracking), so a
match attempt at a position is the function `matchAt` below, and `re.sub`
is the left-to-right scan `subAll`.  `re.search` is `hasBadge`.
-/

def lit : List Char := ['[', '!', '[', 'A', 'I', 'C', 'a', 'C', ']', '(']

def notRp (c : Char) : Bool := c ≠ ')'

/-- One `[^)]+\)` step of the pattern: split `t` as `u ++ ')' :: rest` where
`u` is the maximal (and necessarily unique) nonempty run of non-`)` chars.
The head of `t.dropWhile notRp` can only be `)`, so no head test is needed. -/
def afterParen (t : List Char) : Option (List Char × List Char) :=
  match t.dropWhile notRp with
  | [] => none
  | _ :: rest => if t.takeWhile notRp = [] then none else some (t.takeWhile notRp, rest)

/-- Attempt to match the badge regex at the start of `s`; on success returns
the matched text and the remainder of `s`. -/
def matchAt (s : List Char) : Option (List Char × List Char) :=
  if lit.isPrefixOf s then
    match afterParen (s.drop 10) with
    | some (u, r1) =>
      if r1.take 2 = [']', '('] then
        match afterParen (r1.drop 2) with
        | some (v, rest) => some (lit ++ u ++ ')' :: ']' :: '(' :: (v ++ [')']), rest)
        | none => none
      else none
    | none => none
  else none

/-- `re.search(BADGE_PATTERN, s)` as a Bool: some position of `s` matches. -/
def hasBadge : List Char → Bool
  | [] => false
  | c :: rest => (matchAt (c :: rest)).isSome || hasBadge rest

/-- Fuelled version of the `re.sub` scan (fuel `≥ length` suffices because a
match consumes at least one character). -/
def subAllF (rep : List Char) : Nat → List Char → List Char
  | 0, _ => []
  | _ + 1, [] => []
  | fuel + 1, c :: rest =>
    match matchAt (c :: rest) with
    | some (_, r) => rep ++ subAllF rep fuel r
    | none => c :: subAllF rep fuel rest

/-- `re.sub(BADGE_PATTERN, rep, s)`: replace every leftmost non-overlapping
match by `rep`, leaving all other characters unchanged. -/
def subAll (rep s : List Char) : List Char := subAllF rep s.length s

/-! ## update_badge.py : BadgeUpdater -/

/-- `BadgeUpdater.BADGE_TEMPLATES` together with the `.get(..., default)`
fallback of `get_badge_for_level`. -/
def get_badge_for_level (compliance_level : String) : String :=
  if compliance_level = "Comprehensive" then
    "[![AICaC](https://img.shields.io/badge/AICaC-Comprehensive-success.svg)](https://github.com/eFAILution/AICaC)"
  else if compliance_level = "Standard" then
    "[![AICaC](https://img.shields.io/badge/AICaC-Standard-brightgreen.svg)](https://github.com/eFAILution/AICaC)"
  else if compliance_level = "Minimal" then
    "[![AICaC](https://img.shields.io/badge/AICaC-Minimal-green.svg)](https://github.com/eFAILution/AICaC)"
  else
    "[![AICaC](https://img.shields.io/badge/AICaC-Not%20Adopted-red.svg)](https://github.com/eFAILution/AICaC)"

/-- `content.split('\n')`. -/
def splitLines : List Char → List (List Char)
  | [] => [[]]
  | c :: rest =>
    if c = '\n' then [] :: splitLines rest
    else
      match splitLines rest with
      | l :: ls => (c :: l) :: ls
      | [] => [[c]]

/-- `'\n'.join(lines)`. -/
def joinLines : List (List Char) → List Char
  | [] => []
  | [l] => l
  | l :: l' :: ls => l ++ '\n' :: joinLines (l' :: ls)

/-- `line.startswith('#')`. -/
def startsWithHash : List Char → Bool
  | '#' :: _ => true
  | _ => false

/-- Substring occurrence (Python's `in` on strings). -/
def occursIn (p : List Char) : List Char → Bool
  | [] => p.isEmpty
  | c :: rest => p.isPrefixOf (c :: rest) || occursIn p rest

/-- `'[![' in line`. -/
def hasBB (l : List Char) : Bool := occursIn "[![".data l

/-- `line.strip() == ''` (all characters are whitespace). -/
def isBlankLine (l : List Char) : Bool :=
  l.all fun c => c.isWhitespace || c = '\x0b' || c = '\x0c'

/-- Index of the first line starting with `#`, if any. -/
def findHeading : List (List Char) → Option Nat
  | [] => none
  | l :: ls => if startsWithHash l then some 0 else (findHeading ls).map (· + 1)

/-- `insert_index` of `BadgeUpdater.update_badge`: the line after the first
heading, or `0` when no heading exists. -/
def insert_index (ls : List (List Char)) : Nat :=
  match findHeading ls with
  | some i => i + 1
  | none => 0

/-- The badge-block scan of `update_badge`: number of lines absorbed starting
at the candidate point.  A line qualifies when it contains `[![`, or — except
in the very first scanned position (`i > insert_index` in the code) — when it
is blank. -/
def badgeSpan : Bool → List (List Char) → Nat
  | _, [] => 0
  | first, l :: rest =>
    if hasBB l || (!first && isBlankLine l) then 1 + badgeSpan false rest
    else 0

/-- Python `list.insert`. -/
def insertAt (n : Nat) (x : α) (l : List α) : List α := l.take n ++ x :: l.drop n

/-- The `else` branch of `update_badge` (no existing badge): insert the new
badge after the first heading, extending past an existing badge block, or
create a fresh blank-badge-blank section. -/
def addBadgeLines (new_badge : List Char) (ls : List (List Char)) : List (List Char) :=
  let ii := insert_index ls
  let be := ii + badgeSpan true (ls.drop ii)
  if ii < be then insertAt be new_badge ls
  else insertAt (ii + 2) [] (insertAt (ii + 1) new_badge (insertAt ii [] ls))

/-- `BadgeUpdater.update_badge` acting on the content of an existing
`README.md`; returns the new content and the action string. -/
def update_badge_content (compliance_level : String) (content : List Char) :
    List Char × String :=
  let new_badge := (get_badge_for_level compliance_level).data
  if hasBadge content then (subAll new_badge content, "Updated")
  else (joinLines (addBadgeLines new_badge (splitLines content)), "Added")

/-- `BadgeUpdater.update_badge`: the `README.md` file is `none` when absent.
Returns the file state after the call, the success flag and the message. -/
def update_badge (compliance_level : String) (readme : Option (List Char)) :
    Option (List Char) × Bool × String :=
  match readme with
  | none => (none, false, "README.md not found")
  | some content =>
    let r := update_badge_content compliance_level content
    (some r.1, true, r.2 ++ " badge for compliance level: " ++ compliance_level)

/-! ## validate.py : AICaCValidator -/

/-- The possible observable outcomes of `yaml.safe_load` on `context.yaml`
as far as `_validate_context` is concerned: a `yaml.YAMLError`, a document
that is not a mapping (attribute access then raises, caught by the generic
handler), or a mapping, recorded by the truthiness of each checked field:
`version`, `project.name`, `project.type`, `entrypoints`, `common_tasks`. -/
inductive YamlDoc where
  | malformed
  | scalar
  | mapping (version projectName projectType entrypoints commonTasks : Bool)
deriving DecidableEq

/-- An existing `.ai/` directory: the content of `context.yaml` when present,
and presence of the four optional files. -/
structure AiDir where
  contextFile : Option YamlDoc
  architecture : Bool
  workflows : Bool
  decisions : Bool
  errorsFile : Bool
deriving DecidableEq

/-- `AICaCValidator._validate_context`: result and the error messages it
appends (the embedding drops the interpolated exception text). -/
def validate_context : Option YamlDoc → Bool × List String
  | none => (false, [])
  | some .malformed => (false, ["context.yaml: Invalid YAML syntax"])
  | some .scalar => (false, ["context.yaml: Error reading file"])
  | some (.mapping v pn pt ep ct) =>
    if v = false then (false, ["context.yaml: 'version' field is required"])
    else if pn = false then (false, ["context.yaml: 'project.name' field is required"])
    else if pt = false then (false, ["context.yaml: 'project.type' field is required"])
    else if ep = false then (false, ["context.yaml: at least one 'entrypoint' is required"])
    else if ct = false then (false, ["context.yaml: at least one 'common_task' is required"])
    else (true, [])

/-- The `found` dictionary built by `AICaCValidator._check_files`. -/
structure FoundFiles where
  context : Bool
  architecture : Bool
  workflows : Bool
  decisions : Bool
  errorsFile : Bool
deriving DecidableEq

/-- `AICaCValidator._check_files`: which files exist, plus the error appended
when the required `context.yaml` is missing. -/
def check_files (d : AiDir) : FoundFiles × List String :=
  let found : FoundFiles :=
    ⟨d.contextFile.isSome, d.architecture, d.workflows, d.decisions, d.errorsFile⟩
  (found, if found.context then [] else ["Required file missing: .ai/context.yaml"])

/-- The optional-file count of `_determine_compliance`. -/
def optional_count (f : FoundFiles) : Nat :=
  (if f.architecture then 1 else 0) + (if f.workflows then 1 else 0) +
    (if f.decisions then 1 else 0) + (if f.errorsFile then 1 else 0)

/-- `AICaCValidator._determine_compliance`. -/
def determine_compliance (found : FoundFiles) (context_valid : Bool) : String :=
  if found.context = false || context_valid = false then "None"
  else if 4 ≤ optional_count found then "Comprehensive"
  else if 2 ≤ optional_count found then "Standard"
  else "Minimal"

/-- `AICaCValidator._get_badge_recommendation` (dict `.get` with `'None'`
fallback). -/
def get_badge_recommendation (compliance_level : String) : String :=
  if compliance_level = "Comprehensive" then
    "https://img.shields.io/badge/AICaC-Comprehensive-success.svg"
  else if compliance_level = "Standard" then
    "https://img.shields.io/badge/AICaC-Standard-brightgreen.svg"
  else if compliance_level = "Minimal" then
    "https://img.shields.io/badge/AICaC-Minimal-green.svg"
  else
    "https://img.shields.io/badge/AICaC-Not%20Adopted-red.svg"

/-- The result dictionary of `AICaCValidator.validate`; keys present in only
one of the two return shapes are `Option`-valued. -/
structure Report where
  valid : Bool
  compliance_level : String
  error : Option String
  recommendation : Option String
  found_files : Option FoundFiles
  context_valid : Option Bool
  errors : List String
  badge : Option String
deriving DecidableEq

/-- `AICaCValidator.validate`; the argument is the state of the `.ai/`
directory (`none` when it does not exist).  All failure modes are returned
as data in the report. -/
def validate (ai_dir : Option AiDir) : Report :=
  match ai_dir with
  | none =>
    { valid := false, compliance_level := "None",
      error := some ".ai/ directory not found",
      recommendation := some "Create .ai/ directory and add context.yaml",
      found_files := none, context_valid := none, errors := [], badge := none }
  | some d =>
    let cf := check_files d
    let cv := validate_context d.contextFile
    let level := determine_compliance cf.1 cv.1
    { valid := level != "None", compliance_level := level,
      error := none, recommendation := none,
      found_files := some cf.1, context_valid := some cv.1,
      errors := cf.2 ++ cv.2, badge := some (get_badge_recommendation level) }

/-! ## bootstrap.py : _detect_project_name -/

/-- Observable state of a manifest file for `_detect_project_name`: absent,
present but failing to parse (any exception, caught by the bare `except`),
or parsed with the optional name field (`name` for package.json,
`package.name` for Cargo.toml). -/
inductive Manifest where
  | absent
  | malformed
  | parsed (name : Option String)
deriving DecidableEq

/-- `AICaCBootstrap._detect_project_name`.  Note that a parsed manifest with
a missing name field returns the directory name immediately
(`data.get('name', self.project_path.name)`). -/
def detect_project_name (package_json cargo_toml : Manifest) (dir_name : String) : String :=
  match package_json with
  | .parsed nm => nm.getD dir_name
  | .absent | .malformed =>
    match cargo_toml with
    | .parsed nm => nm.getD dir_name
    | .absent | .malformed => dir_name

/-! ## performance_measurement.py : check_answer -/

/-- Python `str.lower` (ASCII-faithful). -/
def toLowerStr (s : List Char) : List Char := s.map Char.toLower

/-- The `matches` count of `check_answer`: keywords occurring
case-insensitively as substrings of the answer. -/
def countMatches (answer : List Char) (expected_keywords : List (List Char)) : Nat :=
  (expected_keywords.filter fun kw => occursIn (toLowerStr kw) (toLowerStr answer)).length

/-- `check_answer` from `performance_measurement.py`:
`matches >= len(expected_keywords) // 2`. -/
def check_answer (answer : List Char) (expected_keywords : List (List Char)) : Bool :=
  decide (expected_keywords.length / 2 ≤ countMatches answer expected_keywords)

/-! ## Specification-side definitions

These do not come from the source; they restate properties claimed by the
spec, to compare against the embedded code. -/

/-- A string of the exact shape of the badge regex:
`[![AICaC](` then a nonempty run of non-`)` chars, then `)](`, then another
nonempty run of non-`)` chars, then `)`. -/
def BadgeShape (m : List Char) : Prop :=
  ∃ u v : List Char, u ≠ [] ∧ v ≠ [] ∧
    (∀ c ∈ u, notRp c = true) ∧ (∀ c ∈ v, notRp c = true) ∧
    m = lit ++ u ++ ')' :: ']' :: '(' :: (v ++ [')'])

/-- A badge shape whose URL part does not begin with `]` or `(`; all four
badge templates satisfy this. -/
def GoodBadge (m : List Char) : Prop :=
  ∃ u v : List Char, u ≠ [] ∧ v ≠ [] ∧
    (∀ c ∈ u, notRp c = true) ∧ (∀ c ∈ v, notRp c = true) ∧
    (u.head? ≠ some ']' ∧ u.head? ≠ some '(') ∧
    m = lit ++ u ++ ')' :: ']' :: '(' :: (v ++ [')'])

/-- Declarative description of global substitution: `ReplaceAll rep t out`
holds when `out` is `t` with every leftmost non-overlapping match of the
badge pattern replaced by `rep` and every character outside the matched
spans unchanged. -/
inductive ReplaceAll (rep : List Char) : List Char → List Char → Prop where
  | last (t : List Char) (h : ∀ s, s <:+ t → matchAt s = none) : ReplaceAll rep t t
  | step (g m r out : List Char)
      (hg : ∀ s, s <:+ g → s ≠ [] → matchAt (s ++ (m ++ r)) = none)
      (hm : matchAt (m ++ r) = some (m, r))
      (hrec : ReplaceAll rep r out) :
      ReplaceAll rep (g ++ (m ++ r)) (g ++ (rep ++ out))

/-- Modelled from the spec (claim C5 reading): the badge-block scan where a
blank line qualifies only when it immediately follows a badge-like line. -/
def claimSpan : Bool → List (List Char) → Nat
  | _, [] => 0
  | prevBadge, l :: rest =>
    if hasBB l then 1 + claimSpan true rest
    else if prevBadge && isBlankLine l then 1 + claimSpan false rest
    else 0

/-- Lines qualifying for the badge-block scan after the first position. -/
def qualLine (l : List Char) : Bool := hasBB l || isBlankLine l

/-- The message of the first failing check of `_validate_context`, in the
fixed order: parse, `version`, `project.name`, `project.type`,
`entrypoints`, `common_tasks` (declarative restatement used by claim C2). -/
def context_first_error : YamlDoc → Option String
  | .malformed => some "context.yaml: Invalid YAML syntax"
  | .scalar => some "context.yaml: Error reading file"
  | .mapping v pn pt ep ct =>
    (([(v, "context.yaml: 'version' field is required"),
       (pn, "context.yaml: 'project.name' field is required"),
       (pt, "context.yaml: 'project.type' field is required"),
       (ep, "context.yaml: at least one 'entrypoint' is required"),
       (ct, "context.yaml: at least one 'common_task' is required")].filter
         fun p => !p.1).map Prod.snd).head?

/-! ## General list lemmas -/

theorem takeWhile_append_all {α : Type} {p : α → Bool} {xs ys : List α}
    (h : ∀ x ∈ xs, p x = true) :
    (xs ++ ys).takeWhile p = xs ++ ys.takeWhile p := by
  induction xs with
  | nil => rfl
  | cons a l ih =>
    have ha : p a = true := h a (by simp)
    simp only [List.cons_append, List.takeWhile_cons, ha, if_true]
    rw [ih fun x hx => h x (by simp [hx])]

theorem dropWhile_append_all {α : Type} {p : α → Bool} {xs ys : List α}
    (h : ∀ x ∈ xs, p x = true) :
    (xs ++ ys).dropWhile p = ys.dropWhile p := by
  induction xs with
  | nil => rfl
  | cons a l ih =>
    have ha : p a = true := h a (by simp)
    simp only [List.cons_append, List.dropWhile_cons, ha, if_true]
    exact ih fun x hx => h x (by simp [hx])

theorem dropWhile_head_not {α : Type} {p : α → Bool} {l : List α} {c : α} {cs : List α}
    (h : l.dropWhile p = c :: cs) : p c = false := by
  induction l with
  | nil => simp at h
  | cons a l ih =>
    rw [List.dropWhile_cons] at h
    by_cases ha : p a = true
    · rw [if_pos ha] at h; exact ih h
    · rw [if_neg ha] at h
      cases h
      exact Bool.not_eq_true _ ▸ (by simpa using ha)

theorem isPrefixOf_append_of_le {p a : List Char} (x : List Char) (h : p.length ≤ a.length) :
    p.isPrefixOf (a ++ x) = p.isPrefixOf a := by
  induction p generalizing a with
  | nil => simp [List.isPrefixOf]
  | cons c cs ih =>
    cases a with
    | nil => simp at h
    | cons b bs =>
      simp only [List.cons_append, List.isPrefixOf_cons₂]
      rw [ih (by simpa using h)]

theorem isPrefixOf_append_self (p x : List Char) : p.isPrefixOf (p ++ x) = true :=
  List.isPrefixOf_iff_prefix.2 (List.prefix_append p x)

theorem eq_append_drop_of_isPrefixOf {p s : List Char} (h : p.isPrefixOf s = true) :
    s = p ++ s.drop p.length := by
  obtain ⟨t, ht⟩ := List.isPrefixOf_iff_prefix.1 h
  rw [← ht, List.drop_left]

theorem isPrefixOf_take_eq {p y : List Char} (x : List Char)
    (h : p.isPrefixOf (y ++ x) = true) (hle : y.length ≤ p.length) :
    y = p.take y.length := by
  obtain ⟨t, ht⟩ := List.isPrefixOf_iff_prefix.1 h
  rcases List.append_eq_append_iff.1 ht with ⟨a, ha1, _⟩ | ⟨c, hc1, _⟩
  · have hlen : y.length = p.length + a.length := by
      rw [ha1, List.length_append]
    have ha : a = [] := by
      have : a.length = 0 := by omega
      exact List.eq_nil_of_length_eq_zero this
    subst ha
    simp at ha1
    rw [ha1, List.take_length]
  · rw [hc1, List.take_left]

/-! ## occursIn lemmas -/

theorem occursIn_iff_exists {p s : List Char} :
    occursIn p s = true ↔ ∃ x y, s = x ++ p ++ y := by
  induction s with
  | nil =>
    constructor
    · intro h
      have : p = [] := by simpa [occursIn, List.isEmpty_iff] using h
      exact ⟨[], [], by simp [this]⟩
    · rintro ⟨x, y, hxy⟩
      have hx : x = [] ∧ p ++ y = [] := by
        constructor
        · cases x with
          | nil => rfl
          | cons a as => simp at hxy
        · cases x with
          | nil => simpa using hxy.symm
          | cons a as => simp at hxy
      have hp : p = [] := (List.append_eq_nil.1 hx.2).1
      simp [occursIn, hp]
  | cons c rest ih =>
    constructor
    · intro h
      have h' : p.isPrefixOf (c :: rest) = true ∨ occursIn p rest = true := by
        simpa [occursIn] using h
      rcases h' with h1 | h1
      · obtain ⟨t, ht⟩ := List.isPrefixOf_iff_prefix.1 h1
        exact ⟨[], t, by simp [← ht]⟩
      · obtain ⟨x, y, hxy⟩ := ih.1 h1
        exact ⟨c :: x, y, by simp [hxy]⟩
    · rintro ⟨x, y, hxy⟩
      cases x with
      | nil =>
        simp only [List.nil_append] at hxy
        have : p.isPrefixOf (c :: rest) = true := by
          rw [hxy]; exact isPrefixOf_append_self p y
        simp [occursIn, this]
      | cons a as =>
        have hc : a = c ∧ rest = as ++ p ++ y := by
          have := hxy
          simp only [List.cons_append] at this
          exact ⟨(List.cons.injEq _ _ _ _ ▸ this).1.symm, by
            cases this; rfl⟩
        have : occursIn p rest = true := ih.2 ⟨as, y, hc.2⟩
        simp [occursIn, this]

theorem occursIn_append_right {p y : List Char} (x : List Char)
    (h : occursIn p y = true) : occursIn p (x ++ y) = true := by
  obtain ⟨a, b, hab⟩ := occursIn_iff_exists.1 h
  exact occursIn_iff_exists.2 ⟨x ++ a, b, by simp [hab]⟩

theorem occursIn_append_left {p x : List Char} (y : List Char)
    (h : occursIn p x = true) : occursIn p (x ++ y) = true := by
  obtain ⟨a, b, hab⟩ := occursIn_iff_exists.1 h
  exact occursIn_iff_exists.2 ⟨a, b ++ y, by simp [hab]⟩

theorem occursIn_of_isPrefixOf {p s : List Char} (h : p.isPrefixOf s = true) :
    occursIn p s = true := by
  obtain ⟨t, ht⟩ := List.isPrefixOf_iff_prefix.1 h
  exact occursIn_iff_exists.2 ⟨[], t, by simp [← ht]⟩

theorem occursIn_of_suffix {p s t : List Char} (hs : s <:+ t)
    (h : occursIn p s = true) : occursIn p t = true := by
  obtain ⟨a, ha⟩ := hs
  rw [← ha]
  exact occursIn_append_right a h

theorem occursIn_middle (p x y : List Char) : occursIn p (x ++ p ++ y) = true :=
  occursIn_iff_exists.2 ⟨x, y, rfl⟩

theorem occursIn_snoc_false {p x : List Char} {c : Char} (hc : c ∉ p) (hp : p ≠ [])
    (h : occursIn p x = false) : occursIn p (x ++ [c]) = false := by
  by_contra hcon
  have htrue : occursIn p (x ++ [c]) = true := by
    cases hoc : occursIn p (x ++ [c])
    · exact absurd hoc hcon
    · rfl
  obtain ⟨a, b, hab⟩ := occursIn_iff_exists.1 htrue
  cases b with
  | nil =>
    obtain hp0 | ⟨ys, z, hyz⟩ := p.eq_nil_or_concat
    · exact hp hp0
    · subst hyz
      have h1 : x ++ [c] = (a ++ ys) ++ [z] := by simpa using hab
      have e1 : (x ++ [c]).getLast? = some c := List.getLast?_concat x
      rw [h1, List.getLast?_concat] at e1
      have hcz : c = z := by simpa using e1.symm
      exact hc (by simp [hcz])
  | cons b0 bs =>
    have hbne : (b0 :: bs : List Char) ≠ [] := by simp
    have h1 : x = a ++ p ++ (b0 :: bs).dropLast := by
      have h2 : (x ++ [c]).dropLast = (a ++ p ++ b0 :: bs).dropLast := by rw [hab]
      rw [List.dropLast_concat, List.dropLast_append_of_ne_nil _ hbne] at h2
      exact h2
    have : occursIn p x = true := occursIn_iff_exists.2 ⟨a, _, h1⟩
    rw [this] at h; exact absurd h (by simp)

theorem occursIn_cons_false {p x : List Char} {c : Char}
    (h1 : p.isPrefixOf (c :: x) = false) (h2 : occursIn p x = false) :
    occursIn p (c :: x) = false := by
  simp [occursIn, h1, h2]

/-! ## afterParen and matchAt structure lemmas -/

theorem notRp_false_iff {c : Char} : notRp c = false ↔ c = ')' := by
  simp [notRp]

theorem afterParen_intro {u rest : List Char} (hu : u ≠ [])
    (hall : ∀ c ∈ u, notRp c = true) :
    afterParen (u ++ ')' :: rest) = some (u, rest) := by
  unfold afterParen
  rw [dropWhile_append_all hall, takeWhile_append_all hall]
  have hr : notRp ')' = false := by decide
  simp [List.dropWhile_cons, List.takeWhile_cons, hr, hu]

theorem afterParen_elim {t u rest : List Char} (h : afterParen t = some (u, rest)) :
    u ≠ [] ∧ (∀ c ∈ u, notRp c = true) ∧ t = u ++ ')' :: rest := by
  unfold afterParen at h
  split at h
  · simp at h
  · rename_i c cs hdw
    split at h
    · simp at h
    · rename_i htw
      simp only [Option.some.injEq, Prod.mk.injEq] at h
      obtain ⟨h1, h2⟩ := h
      have hc : c = ')' := notRp_false_iff.1 (dropWhile_head_not hdw)
      refine ⟨h1 ▸ htw, fun x hx => List.mem_takeWhile_imp (show x ∈ t.takeWhile notRp from h1.symm ▸ hx), ?_⟩
      calc t = t.takeWhile notRp ++ t.dropWhile notRp :=
            (List.takeWhile_append_dropWhile notRp t).symm
        _ = u ++ ')' :: rest := by rw [hdw, h1, h2, hc]

theorem lit_length : lit.length = 10 := by decide

theorem matchAt_some_eq {s m r : List Char} (h : matchAt s = some (m, r)) :
    BadgeShape m ∧ s = m ++ r := by
  unfold matchAt at h
  split at h
  case isFalse => simp at h
  case isTrue hp =>
  split at h
  case h_2 => simp at h
  case h_1 u r1 hap =>
  split at h
  case isFalse => simp at h
  case isTrue h2 =>
  split at h
  case h_2 => simp at h
  case h_1 v rest hap2 =>
  simp only [Option.some.injEq, Prod.mk.injEq] at h
  obtain ⟨hm, hr⟩ := h
  obtain ⟨hu1, hu2, hu3⟩ := afterParen_elim hap
  obtain ⟨hv1, hv2, hv3⟩ := afterParen_elim hap2
  have hr1 : r1 = ']' :: '(' :: (v ++ ')' :: rest) := by
    have h3 := List.take_append_drop 2 r1
    rw [h2, hv3] at h3
    simpa using h3.symm
  constructor
  · exact hm ▸ ⟨u, v, hu1, hv1, hu2, hv2, rfl⟩
  · have hs : s = lit ++ s.drop 10 := by
      have h4 := eq_append_drop_of_isPrefixOf hp
      rwa [lit_length] at h4
    rw [hs, hu3, hr1, ← hm, ← hr]
    simp

theorem lit_ne_nil : lit ≠ [] := by decide

theorem matchAt_nil : matchAt [] = none := by decide

theorem matchAt_shape_append {m : List Char} (hm : BadgeShape m) (x : List Char) :
    matchAt (m ++ x) = some (m, x) := by
  obtain ⟨u, v, hu, hv, hau, hav, hme⟩ := hm
  subst hme
  have key : (lit ++ u ++ ')' :: ']' :: '(' :: (v ++ [')'])) ++ x
      = lit ++ (u ++ ')' :: (']' :: '(' :: (v ++ ')' :: x))) := by simp
  rw [key]
  unfold matchAt
  rw [if_pos (isPrefixOf_append_self lit _)]
  rw [show (10 : Nat) = lit.length from lit_length.symm, List.drop_left]
  rw [afterParen_intro hu hau]
  dsimp only
  rw [if_pos (by simp)]
  rw [show (']' :: '(' :: (v ++ ')' :: x)).drop 2 = v ++ ')' :: x from rfl]
  rw [afterParen_intro hv hav]

theorem matchAt_some_length {s m r : List Char} (h : matchAt s = some (m, r)) :
    r.length < s.length := by
  obtain ⟨⟨u, v, _, _, _, _, hme⟩, hs⟩ := matchAt_some_eq h
  rw [hs, hme]
  simp [List.length_append]
  omega

theorem subAllF_nil (rep : List Char) (n : Nat) : subAllF rep n [] = [] := by
  cases n <;> rfl

theorem subAllF_congr (rep : List Char) :
    ∀ n m (s : List Char), s.length ≤ n → s.length ≤ m →
      subAllF rep n s = subAllF rep m s := by
  intro n
  induction n with
  | zero =>
    intro m s hn _
    have hs : s = [] := List.eq_nil_of_length_eq_zero (Nat.le_zero.mp hn)
    subst hs
    rw [subAllF_nil, subAllF_nil]
  | succ n ih =>
    intro m s hn hm
    cases s with
    | nil => rw [subAllF_nil, subAllF_nil]
    | cons c rest =>
      cases m with
      | zero => simp at hm
      | succ m' =>
        show subAllF rep (n + 1) (c :: rest) = subAllF rep (m' + 1) (c :: rest)
        simp only [subAllF]
        cases hma : matchAt (c :: rest) with
        | some pr =>
          obtain ⟨m1, r⟩ := pr
          have hlt : r.length < rest.length + 1 := by
            simpa using matchAt_some_length hma
          dsimp only
          rw [ih m' r (by simp at hn; omega) (by simp at hm; omega)]
        | none =>
          dsimp only
          rw [ih m' rest (by simp at hn; omega) (by simp at hm; omega)]

theorem subAll_nil (rep : List Char) : subAll rep [] = [] := rfl

theorem subAll_cons_some (rep : List Char) {c : Char} {rest m r : List Char}
    (h : matchAt (c :: rest) = some (m, r)) :
    subAll rep (c :: rest) = rep ++ subAll rep r := by
  have hlt : r.length < rest.length + 1 := by simpa using matchAt_some_length h
  show subAllF rep (rest.length + 1) (c :: rest) = rep ++ subAllF rep r.length r
  simp only [subAllF, h]
  rw [subAllF_congr rep rest.length r.length r (by omega) (by omega)]

theorem subAll_cons_none (rep : List Char) {c : Char} {rest : List Char}
    (h : matchAt (c :: rest) = none) :
    subAll rep (c :: rest) = c :: subAll rep rest := by
  show subAllF rep (rest.length + 1) (c :: rest) = c :: subAllF rep rest.length rest
  simp only [subAllF, h]

theorem subAll_replaceAll_aux (rep : List Char) :
    ∀ n (t : List Char), t.length ≤ n → ReplaceAll rep t (subAll rep t) := by
  intro n
  induction n with
  | zero =>
    intro t ht
    have hs : t = [] := List.eq_nil_of_length_eq_zero (Nat.le_zero.mp ht)
    subst hs
    rw [subAll_nil]
    exact .last [] fun s hs => by
      rw [List.suffix_nil.mp hs]; exact matchAt_nil
  | succ n ih =>
    intro t ht
    cases t with
    | nil =>
      rw [subAll_nil]
      exact .last [] fun s hs => by
        rw [List.suffix_nil.mp hs]; exact matchAt_nil
    | cons c rest =>
      cases hma : matchAt (c :: rest) with
      | some pr =>
        obtain ⟨m, r⟩ := pr
        obtain ⟨_, heq⟩ := matchAt_some_eq hma
        rw [subAll_cons_some _ hma]
        have hlt : r.length < rest.length + 1 := by simpa using matchAt_some_length hma
        have hrec := ih r (by simp at ht; omega)
        have hm' : matchAt (m ++ r) = some (m, r) := heq ▸ hma
        have hstep := ReplaceAll.step [] m r (subAll rep r)
          (fun s hs hne => absurd (List.suffix_nil.mp hs) hne) hm' hrec
        simpa [← heq] using hstep
      | none =>
        rw [subAll_cons_none _ hma]
        have hrec := ih rest (by simp at ht; omega)
        generalize hout : subAll rep rest = out at hrec
        cases hrec with
        | last _ hall =>
          apply ReplaceAll.last
          intro s hs
          rcases List.suffix_cons_iff.1 hs with hs1 | hs1
          · rw [hs1]; exact hma
          · exact hall s hs1
        | step g m r out' hg hm hrec' =>
          have hgoal := ReplaceAll.step (c :: g) m r out'
            (by
              intro s hs hne
              rcases List.suffix_cons_iff.1 hs with hs1 | hs1
              · rw [hs1]
                simpa using hma
              · exact hg s hs1 hne)
            hm hrec'
          simpa using hgoal

theorem subAll_replaceAll (rep t : List Char) : ReplaceAll rep t (subAll rep t) :=
  subAll_replaceAll_aux rep t.length t (Nat.le_refl _)

theorem matchAt_eq_none_of_not_lit {s : List Char} (h : lit.isPrefixOf s = false) :
    matchAt s = none := by
  unfold matchAt
  rw [if_neg (by simp [h])]

theorem afterParen_head_rp (w : List Char) : afterParen (')' :: w) = none := by
  unfold afterParen
  have h : notRp ')' = false := by decide
  simp [List.dropWhile_cons, List.takeWhile_cons, h]

theorem matchAt_lit_append (X : List Char) :
    matchAt (lit ++ X) =
      match afterParen X with
      | some (u, r1) =>
        if r1.take 2 = [']', '('] then
          match afterParen (r1.drop 2) with
          | some (v, rest) => some (lit ++ u ++ ')' :: ']' :: '(' :: (v ++ [')']), rest)
          | none => none
        else none
      | none => none := by
  unfold matchAt
  rw [if_pos (isPrefixOf_append_self lit X),
    show (10 : Nat) = lit.length from lit_length.symm, List.drop_left]

theorem matchAt_gap_subst {m R : List Char} (hm : BadgeShape m) (hR : GoodBadge R)
    {g b b' : List Char} (h : matchAt (g ++ (m ++ b)) = none) :
    matchAt (g ++ (R ++ b')) = none := by
  obtain ⟨u, v, hu, hv, hau, hav, hme⟩ := hm
  obtain ⟨u2, v2, hu2, hv2, hau2, hav2, hhd2, hre⟩ := hR
  have hTm : g ++ (m ++ b)
      = (g ++ lit) ++ (u ++ ')' :: (']' :: '(' :: (v ++ ')' :: b))) := by
    rw [hme]; simp
  have hTR : g ++ (R ++ b')
      = (g ++ lit) ++ (u2 ++ ')' :: (']' :: '(' :: (v2 ++ ')' :: b'))) := by
    rw [hre]; simp
  by_cases hlp : lit.isPrefixOf (g ++ lit) = true
  case neg =>
    apply matchAt_eq_none_of_not_lit
    rw [hTR, isPrefixOf_append_of_le _ (by simp)]
    cases hb : lit.isPrefixOf (g ++ lit) with
    | false => rfl
    | true => exact absurd hb hlp
  case pos =>
  obtain ⟨h0, hgl⟩ : ∃ h0, g ++ lit = lit ++ h0 := by
    refine ⟨(g ++ lit).drop 10, ?_⟩
    have h4 := eq_append_drop_of_isPrefixOf hlp
    rwa [lit_length] at h4
  have hm' : matchAt (lit ++ (h0 ++ (u ++ ')' :: (']' :: '(' :: (v ++ ')' :: b))))) = none := by
    have he : lit ++ (h0 ++ (u ++ ')' :: (']' :: '(' :: (v ++ ')' :: b)))) = g ++ (m ++ b) := by
      rw [hTm, hgl]; simp
    rw [he]; exact h
  have hge : g ++ (R ++ b')
      = lit ++ (h0 ++ (u2 ++ ')' :: (']' :: '(' :: (v2 ++ ')' :: b')))) := by
    rw [hTR, hgl]; simp
  rw [hge, matchAt_lit_append]
  rw [matchAt_lit_append] at hm'
  cases hdw : h0.dropWhile notRp with
  | nil =>
    -- no `)` in the gap tail: the original position matches, contradiction
    exfalso
    have hall : ∀ x ∈ h0, notRp x = true := List.dropWhile_eq_nil_iff.1 hdw
    have he1 : h0 ++ (u ++ ')' :: (']' :: '(' :: (v ++ ')' :: b)))
        = (h0 ++ u) ++ ')' :: (']' :: '(' :: (v ++ ')' :: b)) := by simp
    rw [he1, afterParen_intro (by simp [hu]) (by
      intro x hx
      rcases List.mem_append.1 hx with h1 | h1
      exacts [hall x h1, hau x h1])] at hm'
    dsimp only at hm'
    split at hm'
    · rw [show ((']' :: '(' :: (v ++ ')' :: b)).drop 2) = v ++ ')' :: b from rfl,
        afterParen_intro hv hav] at hm'
      simp at hm'
    · rename_i hcc
      exact hcc rfl
  | cons c z =>
    have hc : c = ')' := notRp_false_iff.1 (dropWhile_head_not hdw)
    subst hc
    have hsplit : h0 = h0.takeWhile notRp ++ ')' :: z := by
      conv_lhs => rw [← List.takeWhile_append_dropWhile notRp h0]
      rw [hdw]
    have hallA : ∀ x ∈ h0.takeWhile notRp, notRp x = true :=
      fun x hx => List.mem_takeWhile_imp hx
    generalize ha : h0.takeWhile notRp = a at hsplit hallA
    by_cases hae : a = []
    case pos =>
      subst hae
      simp only [List.nil_append] at hsplit
      rw [hsplit]
      rw [hsplit] at hm'
      simp only [List.cons_append]
      rw [afterParen_head_rp]
    case neg =>
      rw [hsplit] at hm' ⊢
      simp only [List.append_assoc, List.cons_append] at hm' ⊢
      rw [afterParen_intro hae hallA] at hm' ⊢
      dsimp only at hm' ⊢
      cases z with
      | nil =>
        obtain ⟨c2, u2t, hu2e⟩ : ∃ c2 u2t, u2 = c2 :: u2t := by
          cases u2 with
          | nil => exact absurd rfl hu2
          | cons c2 u2t => exact ⟨c2, u2t, rfl⟩
        have hc2 : c2 ≠ ']' ∧ c2 ≠ '(' := by
          rw [hu2e] at hhd2
          simpa using hhd2
        split
        · rename_i hcc
          rw [hu2e] at hcc
          simp at hcc
          exact absurd hcc.1 hc2.1
        · rfl
      | cons x z1 =>
        cases z1 with
        | nil =>
          obtain ⟨c2, u2t, hu2e⟩ : ∃ c2 u2t, u2 = c2 :: u2t := by
            cases u2 with
            | nil => exact absurd rfl hu2
            | cons c2 u2t => exact ⟨c2, u2t, rfl⟩
          have hc2 : c2 ≠ ']' ∧ c2 ≠ '(' := by
            rw [hu2e] at hhd2
            simpa using hhd2
          split
          · rename_i hcc
            rw [hu2e] at hcc
            simp at hcc
            exact absurd hcc.2 hc2.2
          · rfl
        | cons y z2 =>
          split
          case isFalse => rfl
          case isTrue hcc =>
          simp only [List.cons_append, List.take_succ_cons, List.take_zero] at hcc
          split at hm'
          case isFalse hcm =>
            exact absurd (by simpa using hcc) (by simpa using hcm)
          case isTrue =>
          simp only [List.cons_append, List.drop_succ_cons, List.drop_zero] at hm' ⊢
          cases hdw2 : z2.dropWhile notRp with
          | nil =>
            exfalso
            have hall2 : ∀ x ∈ z2, notRp x = true := List.dropWhile_eq_nil_iff.1 hdw2
            have he2 : z2 ++ (u ++ ')' :: (']' :: '(' :: (v ++ ')' :: b)))
                = (z2 ++ u) ++ ')' :: (']' :: '(' :: (v ++ ')' :: b)) := by simp
            rw [he2, afterParen_intro (by simp [hu]) (by
              intro x hx
              rcases List.mem_append.1 hx with h1 | h1
              exacts [hall2 x h1, hau x h1])] at hm'
            simp at hm'
          | cons c' z3 =>
            have hc' : c' = ')' := notRp_false_iff.1 (dropWhile_head_not hdw2)
            subst hc'
            have hsplit2 : z2 = z2.takeWhile notRp ++ ')' :: z3 := by
              conv_lhs => rw [← List.takeWhile_append_dropWhile notRp z2]
              rw [hdw2]
            have hallA2 : ∀ x ∈ z2.takeWhile notRp, notRp x = true :=
              fun x hx => List.mem_takeWhile_imp hx
            generalize ha2 : z2.takeWhile notRp = a2 at hsplit2 hallA2
            by_cases ha2e : a2 = []
            case pos =>
              subst ha2e
              simp only [List.nil_append] at hsplit2
              rw [hsplit2]
              simp only [List.cons_append]
              rw [afterParen_head_rp]
            case neg =>
              exfalso
              rw [hsplit2] at hm'
              simp only [List.append_assoc, List.cons_append] at hm'
              rw [afterParen_intro ha2e hallA2] at hm'
              simp at hm'

theorem goodBadge_badgeShape {R : List Char} (h : GoodBadge R) : BadgeShape R := by
  obtain ⟨u, v, h1, h2, h3, h4, _, h6⟩ := h
  exact ⟨u, v, h1, h2, h3, h4, h6⟩

theorem subAll_of_matchAt_some {rep s m r : List Char} (h : matchAt s = some (m, r)) :
    subAll rep s = rep ++ subAll rep r := by
  cases s with
  | nil => rw [matchAt_nil] at h; simp at h
  | cons c rest => exact subAll_cons_some rep h

theorem matchAt_subAll_none {R t : List Char} (hR : GoodBadge R)
    (h : matchAt t = none) : matchAt (subAll R t) = none := by
  have hrep := subAll_replaceAll R t
  generalize hout : subAll R t = out at hrep ⊢
  cases hrep with
  | last _ _ => exact h
  | step g m r out' hg hm hrec =>
    exact matchAt_gap_subst (matchAt_some_eq hm).1 hR h

theorem subAll_absorb_aux {R1 : List Char} (hR1 : GoodBadge R1) (R2 : List Char) :
    ∀ n (t : List Char), t.length ≤ n → subAll R2 (subAll R1 t) = subAll R2 t := by
  intro n
  induction n with
  | zero =>
    intro t ht
    have hs : t = [] := List.eq_nil_of_length_eq_zero (Nat.le_zero.mp ht)
    subst hs
    rfl
  | succ n ih =>
    intro t ht
    cases t with
    | nil => rfl
    | cons c rest =>
      cases hma : matchAt (c :: rest) with
      | some pr =>
        obtain ⟨m, r⟩ := pr
        rw [subAll_cons_some R1 hma, subAll_cons_some R2 hma]
        have hm1 : matchAt (R1 ++ subAll R1 r) = some (R1, subAll R1 r) :=
          matchAt_shape_append (goodBadge_badgeShape hR1) _
        rw [subAll_of_matchAt_some hm1]
        have hlt : r.length < rest.length + 1 := by simpa using matchAt_some_length hma
        rw [ih r (by simp at ht; omega)]
      | none =>
        rw [subAll_cons_none R1 hma, subAll_cons_none R2 hma]
        have hnone : matchAt (c :: subAll R1 rest) = none := by
          rw [← subAll_cons_none R1 hma]
          exact matchAt_subAll_none hR1 hma
        rw [subAll_cons_none _ hnone, ih rest (by simp at ht; omega)]

/-- Substituting with a badge template absorbs any earlier substitution:
re-running `re.sub` (with the same or another template) on the output gives
the same result as running it directly on the original text. -/
theorem subAll_absorb {R1 : List Char} (hR1 : GoodBadge R1) (R2 t : List Char) :
    subAll R2 (subAll R1 t) = subAll R2 t :=
  subAll_absorb_aux hR1 R2 t.length t (Nat.le_refl _)

theorem hasBadge_of_suffix_match {s t m r : List Char} (hs : s <:+ t)
    (h : matchAt s = some (m, r)) : hasBadge t = true := by
  induction t with
  | nil =>
    rw [List.suffix_nil.mp hs, matchAt_nil] at h
    simp at h
  | cons c rest ih =>
    rcases List.suffix_cons_iff.1 hs with h1 | h1
    · have h2 : matchAt (c :: rest) = some (m, r) := h1 ▸ h
      simp [hasBadge, h2]
    · simp [hasBadge, ih h1]

theorem hasBadge_true_exists {t : List Char} (h : hasBadge t = true) :
    ∃ s m r, s <:+ t ∧ matchAt s = some (m, r) := by
  induction t with
  | nil => simp [hasBadge] at h
  | cons c rest ih =>
    cases hmm : matchAt (c :: rest) with
    | some pr =>
      exact ⟨c :: rest, pr.1, pr.2, List.suffix_refl _, by rw [hmm]⟩
    | none =>
      have h2 : hasBadge rest = true := by simpa [hasBadge, hmm] using h
      obtain ⟨s, m, r, hs, hm⟩ := ih h2
      exact ⟨s, m, r, hs.trans (List.suffix_cons c rest), hm⟩

theorem hasBadge_false_all_none {t : List Char} (h : hasBadge t = false) :
    ∀ s, s <:+ t → matchAt s = none := by
  induction t with
  | nil =>
    intro s hs
    rw [List.suffix_nil.mp hs]
    exact matchAt_nil
  | cons c rest ih =>
    have h' : matchAt (c :: rest) = none ∧ hasBadge rest = false := by
      have h2 : ((matchAt (c :: rest)).isSome || hasBadge rest) = false := by
        simpa [hasBadge] using h
      constructor
      · cases hmm : matchAt (c :: rest) with
        | none => rfl
        | some pr => rw [hmm] at h2; simp at h2
      · simp at h2
        exact h2.2
    intro s hs
    rcases List.suffix_cons_iff.1 hs with h1 | h1
    · rw [h1]
      exact h'.1
    · exact ih h'.2 s h1

theorem hasBadge_subAll {R t : List Char} (hR : BadgeShape R)
    (h : hasBadge t = true) : hasBadge (subAll R t) = true := by
  have hrep := subAll_replaceAll R t
  generalize hout : subAll R t = out at hrep ⊢
  cases hrep with
  | last _ _ => exact h
  | step g m r out' hg hmm hrec =>
    exact hasBadge_of_suffix_match (List.suffix_append g (R ++ out'))
      (matchAt_shape_append hR out')

theorem subAll_fixed_aux (R : List Char) :
    ∀ n (t : List Char), t.length ≤ n →
      (∀ s m r, s <:+ t → matchAt s = some (m, r) → m = R) → subAll R t = t := by
  intro n
  induction n with
  | zero =>
    intro t ht _
    have hs : t = [] := List.eq_nil_of_length_eq_zero (Nat.le_zero.mp ht)
    subst hs
    rfl
  | succ n ih =>
    intro t ht hfix
    cases t with
    | nil => rfl
    | cons c rest =>
      cases hma : matchAt (c :: rest) with
      | some pr =>
        obtain ⟨m, r⟩ := pr
        have hmR : m = R := hfix _ _ _ (List.suffix_refl _) hma
        subst hmR
        obtain ⟨hsh, heq⟩ := matchAt_some_eq hma
        rw [subAll_cons_some _ hma]
        have hrsuf : r <:+ c :: rest := by
          rw [heq]; exact List.suffix_append m r
        have hlt : r.length < rest.length + 1 := by simpa using matchAt_some_length hma
        rw [ih r (by simp at ht; omega)
          (fun s m' r' hs h' => hfix s m' r' (hs.trans hrsuf) h')]
        exact heq.symm
      | none =>
        rw [subAll_cons_none _ hma]
        rw [ih rest (by simp at ht; omega)
          (fun s m' r' hs h' => hfix s m' r' (hs.trans (List.suffix_cons c rest)) h')]

/-- If every match inside `t` is literally the replacement `R`, then the
substitution leaves `t` unchanged. -/
theorem subAll_fixed {R t : List Char}
    (hfix : ∀ s m r, s <:+ t → matchAt s = some (m, r) → m = R) : subAll R t = t :=
  subAll_fixed_aux R t.length t (Nat.le_refl _) hfix

theorem goodBadge_template (level : String) :
    GoodBadge (get_badge_for_level level).data := by
  unfold get_badge_for_level
  split
  · exact ⟨"https://img.shields.io/badge/AICaC-Comprehensive-success.svg".data,
      "https://github.com/eFAILution/AICaC".data,
      by decide, by decide, by decide, by decide, ⟨by decide, by decide⟩, by decide⟩
  split
  · exact ⟨"https://img.shields.io/badge/AICaC-Standard-brightgreen.svg".data,
      "https://github.com/eFAILution/AICaC".data,
      by decide, by decide, by decide, by decide, ⟨by decide, by decide⟩, by decide⟩
  split
  · exact ⟨"https://img.shields.io/badge/AICaC-Minimal-green.svg".data,
      "https://github.com/eFAILution/AICaC".data,
      by decide, by decide, by decide, by decide, ⟨by decide, by decide⟩, by decide⟩
  · exact ⟨"https://img.shields.io/badge/AICaC-Not%20Adopted-red.svg".data,
      "https://github.com/eFAILution/AICaC".data,
      by decide, by decide, by decide, by decide, ⟨by decide, by decide⟩, by decide⟩

/-! ## splitLines / joinLines lemmas -/

theorem mem_of_getLast?_eq {α : Type} {l : List α} {a : α} (h : l.getLast? = some a) :
    a ∈ l := by
  obtain hl | ⟨L, b, hLb⟩ := l.eq_nil_or_concat
  · rw [hl] at h; simp at h
  · subst hLb
    have hb : a = b := by
      rw [List.concat_eq_append, List.getLast?_concat] at h
      simpa using h.symm
    simp [hb]

theorem splitLines_ne_nil (c : List Char) : splitLines c ≠ [] := by
  cases c with
  | nil => simp [splitLines]
  | cons a rest =>
    unfold splitLines
    split
    · simp
    · split <;> simp

theorem joinLines_cons_head (a : Char) (l : List Char) (ls : List (List Char)) :
    joinLines ((a :: l) :: ls) = a :: joinLines (l :: ls) := by
  cases ls with
  | nil => rfl
  | cons l2 ls2 => rfl

theorem joinLines_cons_ne (l : List Char) {ls : List (List Char)} (h : ls ≠ []) :
    joinLines (l :: ls) = l ++ '\n' :: joinLines ls := by
  cases ls with
  | nil => exact absurd rfl h
  | cons a b => rfl

theorem joinLines_splitLines (c : List Char) : joinLines (splitLines c) = c := by
  induction c with
  | nil => rfl
  | cons a rest ih =>
    unfold splitLines
    split
    case isTrue h =>
      subst h
      rw [joinLines_cons_ne [] (splitLines_ne_nil rest)]
      simp [ih]
    case isFalse h =>
      cases hs : splitLines rest with
      | nil => exact absurd hs (splitLines_ne_nil rest)
      | cons l ls =>
        dsimp only
        rw [joinLines_cons_head, ← hs, ih]

theorem joinLines_append_cons (pre : List (List Char)) (y : List Char)
    (post : List (List Char)) (h : pre ≠ []) :
    joinLines (pre ++ y :: post) = joinLines pre ++ '\n' :: joinLines (y :: post) := by
  induction pre with
  | nil => exact absurd rfl h
  | cons l pre' ih =>
    cases pre' with
    | nil =>
      rw [show ([l] : List (List Char)) ++ y :: post = l :: y :: post from rfl,
        joinLines_cons_ne l (by simp)]
      rfl
    | cons l2 pre'' =>
      rw [show (l :: l2 :: pre'') ++ y :: post = l :: ((l2 :: pre'') ++ y :: post) from rfl,
        joinLines_cons_ne l (by simp), joinLines_cons_ne l (by simp),
        ih (by simp)]
      simp

theorem joinLines_take_drop :
    ∀ (k : Nat) (ls : List (List Char)), 0 < k → k < ls.length →
      joinLines ls = joinLines (ls.take k) ++ '\n' :: joinLines (ls.drop k) := by
  intro k
  induction k with
  | zero => intro ls h; omega
  | succ k ih =>
    intro ls _ hlen
    cases ls with
    | nil => simp at hlen
    | cons l rest =>
      cases k with
      | zero =>
        cases rest with
        | nil => simp at hlen
        | cons l2 ls2 =>
          show joinLines (l :: l2 :: ls2) = joinLines [l] ++ '\n' :: joinLines (l2 :: ls2)
          rfl
      | succ k' =>
        have hrlen : k' + 1 < rest.length := by simpa using hlen
        have hrne : rest ≠ [] := by
          intro h0; rw [h0] at hrlen; simp at hrlen
        have htne : rest.take (k' + 1) ≠ [] := by
          cases rest with
          | nil => exact absurd rfl hrne
          | cons a b => simp
        show joinLines (l :: rest)
            = joinLines (l :: rest.take (k' + 1)) ++ '\n' :: joinLines (rest.drop (k' + 1))
        rw [joinLines_cons_ne l hrne, joinLines_cons_ne l htne,
          ih rest (by omega) hrlen]
        simp

/-! ## occurrence non-containment helpers -/

theorem occursIn_false_prefix {p x y : List Char} (h : occursIn p (x ++ y) = false) :
    occursIn p x = false := by
  cases hb : occursIn p x with
  | false => rfl
  | true => simp [occursIn_append_left y hb] at h

theorem occursIn_false_suffix {p t s : List Char} (h : occursIn p t = false)
    (hs : s <:+ t) : occursIn p s = false := by
  cases hb : occursIn p s with
  | false => rfl
  | true => simp [occursIn_of_suffix hs hb] at h

theorem occursIn_nil_false {p : List Char} (hp : p ≠ []) : occursIn p [] = false := by
  cases p with
  | nil => exact absurd rfl hp
  | cons a b => rfl

theorem lit_isPrefixOf_cons_ne {c : Char} (hc : c ≠ '[') (x : List Char) :
    lit.isPrefixOf (c :: x) = false := by
  rw [show lit = '[' :: ['!', '[', 'A', 'I', 'C', 'a', 'C', ']', '('] from rfl,
    List.isPrefixOf_cons₂]
  simp [Ne.symm hc]

/-! ## bounds for the insertion logic -/

theorem findHeading_lt_length :
    ∀ {ls : List (List Char)} {i : Nat}, findHeading ls = some i → i < ls.length := by
  intro ls
  induction ls with
  | nil => intro i h; simp [findHeading] at h
  | cons l rest ih =>
    intro i h
    unfold findHeading at h
    split at h
    · simp only [Option.some.injEq] at h
      simp [← h]
    · cases hf : findHeading rest with
      | none => rw [hf] at h; simp at h
      | some j =>
        rw [hf] at h
        simp only [Option.map_some', Option.some.injEq] at h
        have h2 := ih hf
        simp only [List.length_cons, ← h]
        omega

theorem insert_index_le (ls : List (List Char)) : insert_index ls ≤ ls.length := by
  unfold insert_index
  cases hf : findHeading ls with
  | none => simp
  | some i => exact findHeading_lt_length hf

theorem badgeSpan_le (b : Bool) (rows : List (List Char)) :
    badgeSpan b rows ≤ rows.length := by
  induction rows generalizing b with
  | nil => simp [badgeSpan]
  | cons l rest ih =>
    unfold badgeSpan
    split
    · have h1 := ih false
      simp only [List.length_cons]
      omega
    · simp

theorem take_ne_nil {α : Type} {n : Nat} {l : List α} (hn : 0 < n) (hl : l ≠ []) :
    l.take n ≠ [] := by
  cases l with
  | nil => exact absurd rfl hl
  | cons a b =>
    cases n with
    | zero => omega
    | succ n => simp

theorem take_append_one {α : Type} (a : List α) (y : α) (d : List α) {n : Nat}
    (hn : a.length = n) : (a ++ y :: d).take (n + 1) = a ++ [y] := by
  subst hn
  rw [List.take_append 1]
  simp

theorem drop_append_one {α : Type} (a : List α) (y : α) (d : List α) {n : Nat}
    (hn : a.length = n) : (a ++ y :: d).drop (n + 1) = d := by
  subst hn
  rw [List.drop_append 1]
  simp

theorem addBadgeLines_shape (R : List Char) (ls : List (List Char)) (h : ls ≠ []) :
    ∃ pre post, addBadgeLines R ls = pre ++ R :: post ∧ pre ≠ [] ∧
      ((∃ k, 0 < k ∧ pre = ls.take k ∧ post = ls.drop k) ∨
       (∃ k, pre = ls.take k ++ [[]] ∧ post = [] :: ls.drop k)) := by
  unfold addBadgeLines
  dsimp only
  split
  case isTrue hlt =>
    refine ⟨ls.take (insert_index ls + badgeSpan true (ls.drop (insert_index ls))),
      ls.drop (insert_index ls + badgeSpan true (ls.drop (insert_index ls))), rfl, ?_,
      Or.inl ⟨_, by omega, rfl, rfl⟩⟩
    exact take_ne_nil (by omega) h
  case isFalse hge =>
    refine ⟨ls.take (insert_index ls) ++ [[]], [] :: ls.drop (insert_index ls), ?_,
      by simp, Or.inr ⟨insert_index ls, rfl, rfl⟩⟩
    have hA : (ls.take (insert_index ls)).length = insert_index ls := by
      rw [List.length_take]
      exact Nat.min_eq_left (insert_index_le ls)
    have e1 : insertAt (insert_index ls + 1) R
          (ls.take (insert_index ls) ++ [] :: ls.drop (insert_index ls))
        = (ls.take (insert_index ls) ++ [[]]) ++ R :: ls.drop (insert_index ls) := by
      unfold insertAt
      rw [take_append_one _ _ _ hA, drop_append_one _ _ _ hA]
    have hA2 : (ls.take (insert_index ls) ++ [[]]).length = insert_index ls + 1 := by
      simp [hA]
    have e2 : insertAt (insert_index ls + 2) []
          ((ls.take (insert_index ls) ++ [[]]) ++ R :: ls.drop (insert_index ls))
        = ((ls.take (insert_index ls) ++ [[]]) ++ [R]) ++ [] :: ls.drop (insert_index ls) := by
      unfold insertAt
      rw [show insert_index ls + 2 = (insert_index ls + 1) + 1 from rfl]
      rw [take_append_one _ _ _ hA2, drop_append_one _ _ _ hA2]
    rw [show insertAt (insert_index ls) [] ls
        = ls.take (insert_index ls) ++ [] :: ls.drop (insert_index ls) from rfl]
    rw [e1, e2]
    simp

theorem lit_unique_of_bounded {S : List Char}
    (hb : ∀ j, j < S.length → 0 < j → lit.isPrefixOf (S.drop j) = false) :
    ∀ j, 0 < j → lit.isPrefixOf (S.drop j) = false := by
  intro j hj
  by_cases hlt : j < S.length
  · exact hb j hlt hj
  · rw [List.drop_eq_nil_of_le (Nat.le_of_not_lt hlt)]
    decide

theorem template_lit_unique (level : String) :
    ∀ j, 0 < j → lit.isPrefixOf ((get_badge_for_level level).data.drop j) = false := by
  unfold get_badge_for_level
  split
  · exact lit_unique_of_bounded (by decide)
  split
  · exact lit_unique_of_bounded (by decide)
  split
  · exact lit_unique_of_bounded (by decide)
  · exact lit_unique_of_bounded (by decide)

/-- In a text of the form `A ++ R ++ B` where the pattern literal occurs
neither in `A` nor in `B`, `A` ends in a newline and `R` is a badge template,
the only position where the badge pattern matches is the start of `R`, and
the match is exactly `R`. -/
theorem suffix_match_eq {R A B : List Char} (hR : GoodBadge R)
    (hA : occursIn lit A = false) (hB : occursIn lit B = false)
    (hAe : A.getLast? = some '\n')
    (hRj : ∀ j, 0 < j → lit.isPrefixOf (R.drop j) = false)
    {s m r : List Char} (hs : s <:+ A ++ (R ++ B)) (hm : matchAt s = some (m, r)) :
    m = R := by
  have hlits : lit.isPrefixOf s = true := by
    cases hb : lit.isPrefixOf s with
    | true => rfl
    | false =>
      rw [matchAt_eq_none_of_not_lit hb] at hm
      simp at hm
  have hRlast : R.getLast? = some ')' := by
    obtain ⟨u, v, _, _, _, _, _, hre⟩ := hR
    rw [hre, show lit ++ u ++ ')' :: ']' :: '(' :: (v ++ [')'])
        = (lit ++ u ++ ')' :: ']' :: '(' :: v) ++ [')'] from by simp,
      List.getLast?_concat]
  have hseq : s = R ++ B := by
    obtain ⟨a, ha⟩ := hs
    rcases List.append_eq_append_iff.1 ha with ⟨a', ha1, ha2⟩ | ⟨c', hc1, hc2⟩
    · by_cases ha'n : a' = []
      · subst ha'n
        simpa using ha2
      · exfalso
        by_cases hlen : 10 ≤ a'.length
        · have hpa : lit.isPrefixOf a' = true := by
            rw [ha2] at hlits
            rwa [isPrefixOf_append_of_le _ (by rw [lit_length]; omega)] at hlits
          have hocc : occursIn lit A = true := by
            rw [ha1]
            exact occursIn_append_right a (occursIn_of_isPrefixOf hpa)
          simp [hocc] at hA
        · have htake : a' = lit.take a'.length := by
            apply isPrefixOf_take_eq (R ++ B)
            · rw [← ha2]; exact hlits
            · rw [lit_length]; omega
          have hlast : a'.getLast? = some '\n' := by
            rw [ha1] at hAe
            rwa [List.getLast?_append_of_ne_nil a ha'n] at hAe
          have hmem : ('\n' : Char) ∈ lit := by
            have h1 : ('\n' : Char) ∈ a' := mem_of_getLast?_eq hlast
            rw [htake] at h1
            exact List.take_subset _ _ h1
          exact absurd hmem (by decide)
    · rcases List.append_eq_append_iff.1 hc2 with ⟨w, hw1, hw2⟩ | ⟨w, hw1, hw2⟩
      · exfalso
        have hsB : s <:+ B := ⟨w, hw2.symm⟩
        have hocc : occursIn lit B = true :=
          occursIn_of_suffix hsB (occursIn_of_isPrefixOf hlits)
        simp [hocc] at hB
      · by_cases hc'n : c' = []
        · subst hc'n
          simp only [List.nil_append] at hw1
          rw [hw2, hw1]
        · exfalso
          have hwd : w = R.drop c'.length := by
            rw [hw1, List.drop_left]
          by_cases hwl : 10 ≤ w.length
          · have hpw : lit.isPrefixOf w = true := by
              rw [hw2] at hlits
              rwa [isPrefixOf_append_of_le _ (by rw [lit_length]; omega)] at hlits
            have h2 := hRj c'.length (List.length_pos.2 hc'n)
            rw [← hwd] at h2
            simp [hpw] at h2
          · by_cases hwe : w = []
            · subst hwe
              simp only [List.nil_append] at hw2
              have hocc : occursIn lit B = true := by
                rw [← hw2]
                exact occursIn_of_isPrefixOf hlits
              simp [hocc] at hB
            · have htake : w = lit.take w.length := by
                apply isPrefixOf_take_eq B
                · rw [← hw2]; exact hlits
                · rw [lit_length]; omega
              have hlast : w.getLast? = some ')' := by
                rw [hw1] at hRlast
                rwa [List.getLast?_append_of_ne_nil c' hwe] at hRlast
              have hmem : (')' : Char) ∈ lit := by
                have h1 : (')' : Char) ∈ w := mem_of_getLast?_eq hlast
                rw [htake] at h1
                exact List.take_subset _ _ h1
              exact absurd hmem (by decide)
  rw [hseq, matchAt_shape_append (goodBadge_badgeShape hR) B] at hm
  simp only [Option.some.injEq, Prod.mk.injEq] at hm
  exact hm.1.symm

theorem joinLines_take_free {content : List Char} (hnl : occursIn lit content = false)
    (k : Nat) : occursIn lit (joinLines ((splitLines content).take k)) = false := by
  by_cases hk0 : k = 0
  · subst hk0
    rw [List.take_zero]
    exact occursIn_nil_false lit_ne_nil
  · by_cases hklen : k < (splitLines content).length
    · have hsplit := joinLines_take_drop k (splitLines content) (Nat.pos_of_ne_zero hk0) hklen
      rw [joinLines_splitLines] at hsplit
      have h2 : occursIn lit (joinLines ((splitLines content).take k)
          ++ '\n' :: joinLines ((splitLines content).drop k)) = false := by
        rw [← hsplit]; exact hnl
      exact occursIn_false_prefix h2
    · rw [List.take_of_length_le (Nat.le_of_not_lt hklen), joinLines_splitLines]
      exact hnl

theorem joinLines_drop_free {content : List Char} (hnl : occursIn lit content = false)
    (k : Nat) : occursIn lit (joinLines ((splitLines content).drop k)) = false := by
  by_cases hk0 : k = 0
  · subst hk0
    rw [List.drop_zero, joinLines_splitLines]
    exact hnl
  · by_cases hklen : k < (splitLines content).length
    · have hsplit := joinLines_take_drop k (splitLines content) (Nat.pos_of_ne_zero hk0) hklen
      rw [joinLines_splitLines] at hsplit
      have hsuf : joinLines ((splitLines content).drop k) <:+ content := by
        refine ⟨joinLines ((splitLines content).take k) ++ ['\n'], ?_⟩
        conv_rhs => rw [hsplit]
        simp
      exact occursIn_false_suffix hnl hsuf
    · rw [List.drop_eq_nil_of_le (Nat.le_of_not_lt hklen)]
      exact occursIn_nil_false lit_ne_nil

theorem hasBadge_false_of_no_lit {content : List Char}
    (hnl : occursIn lit content = false) : hasBadge content = false := by
  cases hb : hasBadge content with
  | false => rfl
  | true =>
    obtain ⟨s, m, r, hs, hm⟩ := hasBadge_true_exists hb
    have hlits : lit.isPrefixOf s = true := by
      cases hp : lit.isPrefixOf s with
      | true => rfl
      | false => rw [matchAt_eq_none_of_not_lit hp] at hm; simp at hm
    have hocc : occursIn lit content = true :=
      occursIn_of_suffix hs (occursIn_of_isPrefixOf hlits)
    simp [hocc] at hnl

theorem added_branch_fixed (level : String) {content : List Char}
    (hnl : occursIn lit content = false) :
    subAll (get_badge_for_level level).data
        (joinLines (addBadgeLines (get_badge_for_level level).data (splitLines content)))
      = joinLines (addBadgeLines (get_badge_for_level level).data (splitLines content))
    ∧ hasBadge
        (joinLines (addBadgeLines (get_badge_for_level level).data (splitLines content)))
      = true := by
  have hRgood := goodBadge_template level
  obtain ⟨pre, post, hadd, hpre, hdisj⟩ :=
    addBadgeLines_shape (get_badge_for_level level).data (splitLines content)
      (splitLines_ne_nil content)
  have hJP : occursIn lit (joinLines pre) = false := by
    rcases hdisj with ⟨k, _, hkpre, _⟩ | ⟨k, hkpre, _⟩
    · subst hkpre
      exact joinLines_take_free hnl k
    · subst hkpre
      by_cases ht : (splitLines content).take k = []
      · rw [ht]
        simp only [List.nil_append]
        exact occursIn_nil_false lit_ne_nil
      · rw [joinLines_append_cons _ [] [] ht]
        exact occursIn_snoc_false (by decide) lit_ne_nil (joinLines_take_free hnl k)
  have hJPost : occursIn lit (joinLines post) = false := by
    rcases hdisj with ⟨k, _, _, hkpost⟩ | ⟨k, _, hkpost⟩
    · subst hkpost
      exact joinLines_drop_free hnl k
    · subst hkpost
      by_cases hd : (splitLines content).drop k = []
      · rw [hd]
        exact occursIn_nil_false lit_ne_nil
      · rw [joinLines_cons_ne [] hd]
        simp only [List.nil_append]
        exact occursIn_cons_false (lit_isPrefixOf_cons_ne (by decide) _)
          (joinLines_drop_free hnl k)
  obtain ⟨A, B, hAB, hAfree, hBfree, hAlast⟩ :
      ∃ A B, joinLines (addBadgeLines (get_badge_for_level level).data (splitLines content))
          = A ++ ((get_badge_for_level level).data ++ B)
        ∧ occursIn lit A = false ∧ occursIn lit B = false
        ∧ A.getLast? = some '\n' := by
    cases post with
    | nil =>
      refine ⟨joinLines pre ++ ['\n'], [], ?_, ?_, ?_, List.getLast?_concat _⟩
      · rw [hadd, joinLines_append_cons pre _ [] hpre]
        simp [joinLines]
      · exact occursIn_snoc_false (by decide) lit_ne_nil hJP
      · exact occursIn_nil_false lit_ne_nil
    | cons p0 ps =>
      refine ⟨joinLines pre ++ ['\n'], '\n' :: joinLines (p0 :: ps), ?_, ?_, ?_,
        List.getLast?_concat _⟩
      · rw [hadd, joinLines_append_cons pre _ (p0 :: ps) hpre,
          joinLines_cons_ne _ (by simp : (p0 :: ps : List (List Char)) ≠ [])]
        simp
      · exact occursIn_snoc_false (by decide) lit_ne_nil hJP
      · exact occursIn_cons_false (lit_isPrefixOf_cons_ne (by decide) _) hJPost
  rw [hAB]
  constructor
  · apply subAll_fixed
    intro s m r hs hm
    exact suffix_match_eq hRgood hAfree hBfree hAlast (template_lit_unique level) hs hm
  · exact hasBadge_of_suffix_match (List.suffix_append A _)
      (matchAt_shape_append (goodBadge_badgeShape hRgood) B)

/-! ## badgeSpan and findHeading characterizations -/

theorem badgeSpan_false_eq_takeWhile (rows : List (List Char)) :
    badgeSpan false rows = (rows.takeWhile qualLine).length := by
  induction rows with
  | nil => rfl
  | cons l rest ih =>
    unfold badgeSpan
    rw [List.takeWhile_cons]
    simp only [Bool.not_false, Bool.true_and]
    by_cases hq : qualLine l = true
    · rw [if_pos (by simpa [qualLine] using hq), if_pos hq]
      simp [ih]
      omega
    · rw [if_neg (by simpa [qualLine] using hq), if_neg hq]
      rfl

theorem badgeSpan_true_eq (rows : List (List Char)) :
    badgeSpan true rows
      = match rows with
        | [] => 0
        | l :: rest => if hasBB l = true then 1 + (rest.takeWhile qualLine).length else 0 := by
  cases rows with
  | nil => rfl
  | cons l rest =>
    unfold badgeSpan
    dsimp only
    simp only [Bool.not_true, Bool.false_and, Bool.or_false]
    by_cases h : hasBB l = true
    · rw [if_pos h, if_pos h, badgeSpan_false_eq_takeWhile]
    · rw [if_neg h, if_neg h]

theorem findHeading_none_spec : ∀ {ls : List (List Char)}, findHeading ls = none →
    ∀ l ∈ ls, startsWithHash l = false := by
  intro ls
  induction ls with
  | nil =>
    intro _ l hl
    simp at hl
  | cons l0 rest ih =>
    intro h l hl
    unfold findHeading at h
    split at h
    · simp at h
    · rename_i hsw
      have hrest : findHeading rest = none := by
        cases hf : findHeading rest with
        | none => rfl
        | some j => rw [hf] at h; simp at h
      rcases List.mem_cons.1 hl with rfl | hl2
      · cases hs : startsWithHash l with
        | false => rfl
        | true => exact absurd hs hsw
      · exact ih hrest l hl2

theorem findHeading_some_spec : ∀ {ls : List (List Char)} {i : Nat},
    findHeading ls = some i →
      i < ls.length ∧ startsWithHash (ls.getD i []) = true
        ∧ ∀ j, j < i → startsWithHash (ls.getD j []) = false := by
  intro ls
  induction ls with
  | nil => intro i h; simp [findHeading] at h
  | cons l0 rest ih =>
    intro i h
    unfold findHeading at h
    split at h
    · rename_i hsw
      simp only [Option.some.injEq] at h
      subst h
      exact ⟨by simp, by simpa using hsw, fun j hj => absurd hj (by omega)⟩
    · rename_i hsw
      cases hf : findHeading rest with
      | none => rw [hf] at h; simp at h
      | some j =>
        rw [hf] at h
        simp only [Option.map_some', Option.some.injEq] at h
        subst h
        obtain ⟨ih1, ih2, ih3⟩ := ih hf
        refine ⟨by simp; omega, by simpa using ih2, ?_⟩
        intro j' hj'
        cases j' with
        | zero =>
          simp only [List.getD_cons_zero]
          cases hs : startsWithHash l0 with
          | false => rfl
          | true => exact absurd hs hsw
        | succ j'' =>
          rw [List.getD_cons_succ]
          exact ih3 j'' (by omega)

/-! ## determine_compliance characterization -/

theorem determine_compliance_spec (f : FoundFiles) (cv : Bool) :
    (f.context = false ∨ cv = false → determine_compliance f cv = "None") ∧
    (f.context = true → cv = true →
      ((determine_compliance f cv = "Comprehensive" ↔ optional_count f = 4) ∧
       (determine_compliance f cv = "Standard"
          ↔ (optional_count f = 2 ∨ optional_count f = 3)) ∧
       (determine_compliance f cv = "Minimal" ↔ optional_count f ≤ 1))) := by
  obtain ⟨c, a, w, de, er⟩ := f
  cases c <;> cases cv <;> cases a <;> cases w <;> cases de <;> cases er <;> decide

/-! ## Claim theorems -/

/-- Claim C1: when the `.ai/` directory exists, a missing `context.yaml` or a
failed content validation yields compliance level `None` and `valid = false`;
otherwise, with `k` the number of the four optional files present, the level
is `Comprehensive` iff `k = 4`, `Standard` iff `k ∈ {2, 3}` and `Minimal` iff
`k ≤ 1`. -/
theorem claim_C1_compliance_tiers (d : AiDir) :
    ((d.contextFile = none ∨ (validate_context d.contextFile).1 = false) →
      (validate (some d)).compliance_level = "None"
        ∧ (validate (some d)).valid = false) ∧
    (d.contextFile ≠ none → (validate_context d.contextFile).1 = true →
      (((validate (some d)).compliance_level = "Comprehensive"
          ↔ optional_count (check_files d).1 = 4) ∧
       ((validate (some d)).compliance_level = "Standard"
          ↔ (optional_count (check_files d).1 = 2 ∨ optional_count (check_files d).1 = 3)) ∧
       ((validate (some d)).compliance_level = "Minimal"
          ↔ optional_count (check_files d).1 ≤ 1))) := by
  have hspec := determine_compliance_spec (check_files d).1 (validate_context d.contextFile).1
  have hcl : (validate (some d)).compliance_level
      = determine_compliance (check_files d).1 (validate_context d.contextFile).1 := by
    simp [validate]
  have hvd : (validate (some d)).valid
      = (determine_compliance (check_files d).1 (validate_context d.contextFile).1
          != "None") := by
    simp [validate]
  have hctx : (check_files d).1.context = d.contextFile.isSome := by
    simp [check_files]
  constructor
  · rintro (h | h)
    · have h0 : (check_files d).1.context = false := by
        rw [hctx, h]; rfl
      have hnone := hspec.1 (Or.inl h0)
      rw [hcl, hvd, hnone]
      exact ⟨rfl, by decide⟩
    · have hnone := hspec.1 (Or.inr h)
      rw [hcl, hvd, hnone]
      exact ⟨rfl, by decide⟩
  · intro h1 h2
    have h0 : (check_files d).1.context = true := by
      rw [hctx]
      cases hc : d.contextFile with
      | none => exact absurd hc h1
      | some y => rfl
    rw [hcl]
    exact hspec.2 h0 h2

/-- Witness for claim C1 at a directory with a valid context and exactly two
optional files. -/
theorem claim_C1_witness :
    (validate (some ⟨some (.mapping true true true true true), true, true, false, false⟩)).compliance_level
        = "Standard"
      ↔ (optional_count (check_files ⟨some (.mapping true true true true true), true, true, false, false⟩).1 = 2
        ∨ optional_count (check_files ⟨some (.mapping true true true true true), true, true, false, false⟩).1 = 3) :=
  ((claim_C1_compliance_tiers _).2 (by decide) (by decide)).2.1

/-- Claim C2: `_validate_context` evaluates its checks in the fixed order
(parse, version, project.name, project.type, entrypoints, common_tasks),
short-circuits at the first failing check appending exactly that check's
message, and returns true (with no message) only when all checks pass. -/
theorem claim_C2_context_check_order (y : YamlDoc) :
    validate_context (some y)
      = ((context_first_error y).isNone, (context_first_error y).toList) := by
  cases y with
  | malformed => rfl
  | scalar => rfl
  | mapping v pn pt ep ct =>
    cases v <;> cases pn <;> cases pt <;> cases ep <;> cases ct <;> rfl

/-- Claim C6 counterexample: a well-formed package.json without a `name`
field resolves to the directory name at once, it does not fall through to
Cargo.toml. -/
theorem claim_C6_counterexample :
    detect_project_name (.parsed none) (.parsed (some "fromtoml")) "dirname" = "dirname"
    ∧ "dirname" ≠ "fromtoml" := ⟨rfl, by decide⟩

/-- Claim C6 (amended): the JSON manifest wins when it parses: its `name`
field if present, else the directory name directly (Cargo.toml is ignored);
only a missing or unparseable package.json falls through to Cargo.toml,
which behaves the same way; no error is surfaced in any case. -/
theorem claim_C6_amended :
    (∀ (ct : Manifest) (d n : String),
        detect_project_name (.parsed (some n)) ct d = n)
    ∧ (∀ (ct : Manifest) (d : String),
        detect_project_name (.parsed none) ct d = d)
    ∧ (∀ pj : Manifest, (pj = .absent ∨ pj = .malformed) →
        ∀ (d n : String),
          detect_project_name pj (.parsed (some n)) d = n
          ∧ detect_project_name pj (.parsed none) d = d
          ∧ detect_project_name pj .absent d = d
          ∧ detect_project_name pj .malformed d = d) := by
  refine ⟨fun ct d n => rfl, fun ct d => rfl, ?_⟩
  rintro pj (rfl | rfl) d n <;> exact ⟨rfl, rfl, rfl, rfl⟩

/-- Witness for claim C6 at a malformed package.json and a parsed Cargo.toml. -/
theorem claim_C6_witness :
    detect_project_name .malformed (.parsed (some "pkg")) "dir" = "pkg" :=
  (claim_C6_amended.2.2 .malformed (Or.inr rfl) "dir" "pkg").1

/-- Claim C7 counterexample: with three keywords, one match suffices for
`check_answer` although one is less than half of three. -/
theorem claim_C7_counterexample :
    ¬ (check_answer ("alpha").data [("alpha").data, ("beta").data, ("gamma").data] = true
        ↔ 2 * countMatches ("alpha").data [("alpha").data, ("beta").data, ("gamma").data]
            ≥ ([("alpha").data, ("beta").data, ("gamma").data] : List (List Char)).length) := by
  decide

/-- Claim C7 (amended): `check_answer` returns true iff the number `m` of
keywords occurring case-insensitively in the answer satisfies
`2 * m + 1 ≥ n` (that is, `m ≥ ⌊n / 2⌋`), which is "at least half" only for
even keyword counts. -/
theorem claim_C7_amended (answer : List Char) (kws : List (List Char)) :
    check_answer answer kws = true ↔ 2 * countMatches answer kws + 1 ≥ kws.length := by
  unfold check_answer
  rw [decide_eq_true_iff]
  omega

/-- Claim C8: `validate` is a total function whose failure modes are data in
the report: an absent `.ai/` directory gives `None`, `valid = false` and the
directory-not-found error; an existing directory never sets the `error` key,
and a malformed `context.yaml` is reported through `valid = false` plus a
message in the error list, with no exception. -/
theorem claim_C8_report_as_data (d : AiDir) :
    (validate none).valid = false
    ∧ (validate none).compliance_level = "None"
    ∧ (validate none).error = some ".ai/ directory not found"
    ∧ (validate (some d)).error = none
    ∧ (d.contextFile = some .malformed →
        (validate (some d)).valid = false
          ∧ "context.yaml: Invalid YAML syntax" ∈ (validate (some d)).errors) := by
  refine ⟨rfl, rfl, rfl, by simp [validate], ?_⟩
  intro h
  obtain ⟨cf, a, w, de, er⟩ := d
  simp only at h
  subst h
  constructor
  · simp [validate, determine_compliance, validate_context, check_files]
  · simp [validate, validate_context, check_files]

/-- Witness for claim C8 at a directory holding a malformed context.yaml. -/
theorem claim_C8_witness :
    (validate (some ⟨some .malformed, false, false, false, false⟩)).valid = false
    ∧ "context.yaml: Invalid YAML syntax"
        ∈ (validate (some ⟨some .malformed, false, false, false, false⟩)).errors :=
  (claim_C8_report_as_data ⟨some .malformed, false, false, false, false⟩).2.2.2.2 rfl

/-- Claim C9: when README.md does not exist, `update_badge` fails with the
descriptive message and performs no write (the file state is unchanged). -/
theorem claim_C9_missing_readme (level : String) :
    update_badge level none = (none, false, "README.md not found") := rfl

/-- Claim C10: an unrecognized compliance-level string degrades to the
`None` ("Not Adopted", red) badge in both `get_badge_for_level` and
`_get_badge_recommendation`, with no exception raised. -/
theorem claim_C10_unknown_level (s : String)
    (h1 : s ≠ "Comprehensive") (h2 : s ≠ "Standard") (h3 : s ≠ "Minimal")
    (h4 : s ≠ "None") :
    get_badge_for_level s
        = "[![AICaC](https://img.shields.io/badge/AICaC-Not%20Adopted-red.svg)](https://github.com/eFAILution/AICaC)"
    ∧ get_badge_recommendation s
        = "https://img.shields.io/badge/AICaC-Not%20Adopted-red.svg" := by
  constructor <;> simp [get_badge_for_level, get_badge_recommendation, h1, h2, h3]

/-- Witness for claim C10 at the unrecognized string "Bogus". -/
theorem claim_C10_witness :
    get_badge_for_level "Bogus"
        = "[![AICaC](https://img.shields.io/badge/AICaC-Not%20Adopted-red.svg)](https://github.com/eFAILution/AICaC)"
    ∧ get_badge_recommendation "Bogus"
        = "https://img.shields.io/badge/AICaC-Not%20Adopted-red.svg" :=
  claim_C10_unknown_level "Bogus" (by decide) (by decide) (by decide) (by decide)

set_option maxRecDepth 8192 in
/-- Claim C3 counterexample: on a README containing a dangling occurrence of
`[![AICaC](` without a full badge match, the second `update_badge` call with
the same tier reports "Updated" but does not leave the file byte-identical:
the dangling text is absorbed into the replaced span. -/
theorem claim_C3_counterexample :
    (update_badge_content "Minimal"
        (update_badge_content "Minimal" ("# T\n[![AICaC](x\nhello").data).1).2 = "Updated"
    ∧ (update_badge_content "Minimal"
        (update_badge_content "Minimal" ("# T\n[![AICaC](x\nhello").data).1).1
      ≠ (update_badge_content "Minimal" ("# T\n[![AICaC](x\nhello").data).1 := by
  constructor
  · decide
  · decide

/-- Claim C3 (amended): for every initial README text that already contains a
badge match, or in which the literal `[![AICaC](` does not occur at all,
calling `update_badge` with a tier and then calling it again on the written
file leaves the file byte-identical to the first result, and the second call
succeeds and reports the "Updated" action. -/
theorem claim_C3_amended (level : String) (content : List Char)
    (h : hasBadge content = true ∨ occursIn lit content = false) :
    (update_badge level (update_badge level (some content)).1).1
        = (update_badge level (some content)).1
    ∧ (update_badge level (update_badge level (some content)).1).2.1 = true
    ∧ (update_badge level (update_badge level (some content)).1).2.2
        = "Updated" ++ " badge for compliance level: " ++ level := by
  have hkey :
      (update_badge_content level (update_badge_content level content).1).1
          = (update_badge_content level content).1
      ∧ (update_badge_content level (update_badge_content level content).1).2
          = "Updated" := by
    rcases h with h | h
    · have hR := goodBadge_template level
      have e1 : update_badge_content level content
          = (subAll (get_badge_for_level level).data content, "Updated") := by
        simp [update_badge_content, h]
      have h2 : hasBadge (subAll (get_badge_for_level level).data content) = true :=
        hasBadge_subAll (goodBadge_badgeShape hR) h
      rw [e1]
      simp only [update_badge_content, h2, if_true]
      exact ⟨subAll_absorb hR _ _, trivial⟩
    · have hb : hasBadge content = false := hasBadge_false_of_no_lit h
      have e1 : update_badge_content level content
          = (joinLines (addBadgeLines (get_badge_for_level level).data (splitLines content)),
              "Added") := by
        simp [update_badge_content, hb]
      obtain ⟨hfix, hhas⟩ := added_branch_fixed level h
      rw [e1]
      simp only [update_badge_content, hhas, if_true]
      exact ⟨hfix, trivial⟩
  refine ⟨?_, rfl, ?_⟩
  · show some (update_badge_content level (update_badge_content level content).1).1
        = some (update_badge_content level content).1
    rw [hkey.1]
  · show (update_badge_content level (update_badge_content level content).1).2
          ++ " badge for compliance level: " ++ level
        = "Updated" ++ " badge for compliance level: " ++ level
    rw [hkey.2]

/-- Witness for claim C3 at a one-heading README without any badge text. -/
theorem claim_C3_witness :
    (update_badge "Minimal" (update_badge "Minimal" (some ("# Hi").data)).1).1
        = (update_badge "Minimal" (some ("# Hi").data)).1
    ∧ (update_badge "Minimal" (update_badge "Minimal" (some ("# Hi").data)).1).2.1 = true
    ∧ (update_badge "Minimal" (update_badge "Minimal" (some ("# Hi").data)).1).2.2
        = "Updated" ++ " badge for compliance level: " ++ "Minimal" :=
  claim_C3_amended "Minimal" ("# Hi").data (Or.inr (by decide))

set_option maxRecDepth 8192 in
/-- Claim C4 counterexample: the document text outside the matched spans is
left unchanged, so a previous tier's label ("Minimal") surviving in the prose
is still present after sequentially applying Minimal and then Standard —
contradicting "no previous tier's label" read over the whole text. -/
theorem claim_C4_counterexample :
    hasBadge ("# T\n[![AICaC](a)](b)\nMinimal").data = true
    ∧ occursIn ("Minimal").data
        (update_badge_content "Standard"
          (update_badge_content "Minimal" ("# T\n[![AICaC](a)](b)\nMinimal").data).1).1
      = true := by
  constructor
  · decide
  · decide

/-- Claim C4 (amended): on a document with at least one badge match,
`update_badge` performs a global substitution — every leftmost match is
replaced by the target tier's badge template and every character outside the
matched spans is unchanged (`ReplaceAll`); the target tier's badge occurs in
the result; and a later application with another tier absorbs the earlier
one, so no trace of the intermediate tier's replacement remains beyond what
applying the final tier directly would leave. -/
theorem claim_C4_amended (l1 l2 : String) (t : List Char) (h : hasBadge t = true) :
    ReplaceAll (get_badge_for_level l2).data t ((update_badge_content l2 t).1)
    ∧ occursIn (get_badge_for_level l2).data ((update_badge_content l2 t).1) = true
    ∧ (update_badge_content l2 (update_badge_content l1 t).1).1
        = (update_badge_content l2 t).1 := by
  have hR1 := goodBadge_template l1
  have hR2 := goodBadge_template l2
  have e2 : (update_badge_content l2 t).1 = subAll (get_badge_for_level l2).data t := by
    simp [update_badge_content, h]
  have e1 : (update_badge_content l1 t).1 = subAll (get_badge_for_level l1).data t := by
    simp [update_badge_content, h]
  refine ⟨?_, ?_, ?_⟩
  · rw [e2]
    exact subAll_replaceAll _ _
  · rw [e2]
    have hrep := subAll_replaceAll (get_badge_for_level l2).data t
    generalize hout : subAll (get_badge_for_level l2).data t = out at hrep ⊢
    cases hrep with
    | last _ hall =>
      exfalso
      obtain ⟨s, m, r, hs, hm⟩ := hasBadge_true_exists h
      rw [hall s hs] at hm
      simp at hm
    | step g m r out' _ _ _ =>
      exact occursIn_iff_exists.2 ⟨g, out', by simp⟩
  · rw [e1, e2]
    have hb1 : hasBadge (subAll (get_badge_for_level l1).data t) = true :=
      hasBadge_subAll (goodBadge_badgeShape hR1) h
    simp only [update_badge_content, hb1, if_true]
    exact subAll_absorb hR1 _ t

/-- Witness for claim C4 at a document holding one badge match, with tiers
Minimal then Standard. -/
theorem claim_C4_witness :
    ReplaceAll (get_badge_for_level "Standard").data ("# X\n[![AICaC](a)](b)").data
        ((update_badge_content "Standard" ("# X\n[![AICaC](a)](b)").data).1)
    ∧ occursIn (get_badge_for_level "Standard").data
        ((update_badge_content "Standard" ("# X\n[![AICaC](a)](b)").data).1) = true
    ∧ (update_badge_content "Standard"
          (update_badge_content "Minimal" ("# X\n[![AICaC](a)](b)").data).1).1
        = (update_badge_content "Standard" ("# X\n[![AICaC](a)](b)").data).1 :=
  claim_C4_amended "Minimal" "Standard" ("# X\n[![AICaC](a)](b)").data (by decide)

theorem addBadgeLines_eq (R : List Char) (ls : List (List Char)) :
    addBadgeLines R ls
      = (if 0 < badgeSpan true (ls.drop (insert_index ls)) then
          ls.take (insert_index ls + badgeSpan true (ls.drop (insert_index ls)))
            ++ R :: ls.drop (insert_index ls + badgeSpan true (ls.drop (insert_index ls)))
         else
          ls.take (insert_index ls) ++ [] :: R :: [] :: ls.drop (insert_index ls)) := by
  unfold addBadgeLines
  dsimp only
  by_cases hq : 0 < badgeSpan true (ls.drop (insert_index ls))
  · rw [if_pos (by omega), if_pos hq]
    rfl
  · rw [if_neg (by omega), if_neg hq]
    have hA : (ls.take (insert_index ls)).length = insert_index ls := by
      rw [List.length_take]
      exact Nat.min_eq_left (insert_index_le ls)
    have e1 : insertAt (insert_index ls + 1) R
          (ls.take (insert_index ls) ++ [] :: ls.drop (insert_index ls))
        = (ls.take (insert_index ls) ++ [[]]) ++ R :: ls.drop (insert_index ls) := by
      unfold insertAt
      rw [take_append_one _ _ _ hA, drop_append_one _ _ _ hA]
    have hA2 : (ls.take (insert_index ls) ++ [[]]).length = insert_index ls + 1 := by
      simp [hA]
    have e2 : insertAt (insert_index ls + 2) []
          ((ls.take (insert_index ls) ++ [[]]) ++ R :: ls.drop (insert_index ls))
        = ((ls.take (insert_index ls) ++ [[]]) ++ [R]) ++ [] :: ls.drop (insert_index ls) := by
      unfold insertAt
      rw [show insert_index ls + 2 = (insert_index ls + 1) + 1 from rfl]
      rw [take_append_one _ _ _ hA2, drop_append_one _ _ _ hA2]
    rw [show insertAt (insert_index ls) [] ls
        = ls.take (insert_index ls) ++ [] :: ls.drop (insert_index ls) from rfl]
    rw [e1, e2]
    simp

set_option maxRecDepth 8192 in
/-- Claim C5 counterexample: with two consecutive blank lines after a
badge-like line, the code's scan absorbs both blanks (any blank line past
the candidate point qualifies), while the claimed rule — badge-like lines or
a single blank immediately following a badge — absorbs only the first, so
the new badge lands one line lower than the claim predicts. -/
theorem claim_C5_counterexample :
    hasBadge ("# T\n[![Build](x)](y)\n\n\nrest").data = false
    ∧ insert_index (splitLines ("# T\n[![Build](x)](y)\n\n\nrest").data) = 1
    ∧ badgeSpan true ((splitLines ("# T\n[![Build](x)](y)\n\n\nrest").data).drop 1) = 3
    ∧ claimSpan false ((splitLines ("# T\n[![Build](x)](y)\n\n\nrest").data).drop 1) = 2
    ∧ (update_badge_content "Minimal" ("# T\n[![Build](x)](y)\n\n\nrest").data).1
        = joinLines ((splitLines ("# T\n[![Build](x)](y)\n\n\nrest").data).take 4
            ++ (get_badge_for_level "Minimal").data
              :: (splitLines ("# T\n[![Build](x)](y)\n\n\nrest").data).drop 4)
    ∧ (update_badge_content "Minimal" ("# T\n[![Build](x)](y)\n\n\nrest").data).1
        ≠ joinLines ((splitLines ("# T\n[![Build](x)](y)\n\n\nrest").data).take 3
            ++ (get_badge_for_level "Minimal").data
              :: (splitLines ("# T\n[![Build](x)](y)\n\n\nrest").data).drop 3) :=
  ⟨by decide, by decide, by decide, by decide, by decide, by decide⟩

/-- Claim C5 (amended): when no badge matches, the candidate insertion point
is the line after the first line starting with `#` (or 0 without headings);
the absorbed block is the maximal run of following lines each containing
`[![` or blank — a blank qualifies at any position after the first scanned
line, including consecutive blanks and blanks not preceded by a badge; if at
least one line was absorbed the badge is inserted right after the block,
otherwise a blank line, the badge and another blank line are inserted at the
candidate point. -/
theorem claim_C5_amended (level : String) (content : List Char)
    (h : hasBadge content = false) :
    (match findHeading (splitLines content) with
     | some i => insert_index (splitLines content) = i + 1
         ∧ i < (splitLines content).length
         ∧ startsWithHash ((splitLines content).getD i []) = true
         ∧ ∀ j, j < i → startsWithHash ((splitLines content).getD j []) = false
     | none => insert_index (splitLines content) = 0
         ∧ ∀ l ∈ splitLines content, startsWithHash l = false)
    ∧ badgeSpan true ((splitLines content).drop (insert_index (splitLines content)))
        = (match (splitLines content).drop (insert_index (splitLines content)) with
           | [] => 0
           | l :: rest => if hasBB l = true then 1 + (rest.takeWhile qualLine).length else 0)
    ∧ (update_badge_content level content).1
        = joinLines
            (if 0 < badgeSpan true
                ((splitLines content).drop (insert_index (splitLines content))) then
              (splitLines content).take (insert_index (splitLines content)
                  + badgeSpan true ((splitLines content).drop (insert_index (splitLines content))))
                ++ (get_badge_for_level level).data
                  :: (splitLines content).drop (insert_index (splitLines content)
                      + badgeSpan true ((splitLines content).drop (insert_index (splitLines content))))
             else
              (splitLines content).take (insert_index (splitLines content))
                ++ [] :: (get_badge_for_level level).data
                  :: [] :: (splitLines content).drop (insert_index (splitLines content))) := by
  refine ⟨?_, badgeSpan_true_eq _, ?_⟩
  · cases hf : findHeading (splitLines content) with
    | none => exact ⟨by simp [insert_index, hf], findHeading_none_spec hf⟩
    | some i => exact ⟨by simp [insert_index, hf], findHeading_some_spec hf⟩
  · simp only [update_badge_content, h, Bool.false_eq_true, if_false]
    rw [addBadgeLines_eq]

/-- Witness for claim C5 at a two-line README with a heading and no badge
block: the blank-badge-blank section is created after the heading. -/
theorem claim_C5_witness :
    (update_badge_content "None" ("# T\nx").data).1
      = joinLines ((splitLines ("# T\nx").data).take 1
          ++ [] :: (get_badge_for_level "None").data
            :: [] :: (splitLines ("# T\nx").data).drop 1) :=
  ((claim_C5_amended "None" ("# T\nx").data (by decide)).2.2).trans (by decide)
